import Mathlib

/-!
Verification development for the commonswiki bulk downloader.

The Python source is shallowly embedded: each relevant function is
translated into a pure Lean function over explicit state.  Files become
lists of lines, Python sets of filenames become duplicate-free lists,
the `key=value` checkpoint store becomes a record of the positions the
scanner reads and writes, and the HTTP layer is abstracted as a value
describing the result of one `requests.get` call.
-/

set_option autoImplicit false

namespace CWBD

/-! ## Dump scanner (`scanner.py`, `scan_commons_db`)

The scanner state visible to one `scan_commons_db` call: the output
file (a list of written match lines), and the two checkpoint values it
uses, keyed `<infile>:<handler>:<interval>` (`prog`) and
`<infile>:size` (`size`).  `load_position` returns 0 for an absent key,
so 0 plays the role of "absent" for both positions, matching the
`if not end or start < end` test in the source.

A dump line is abstracted by the two things `scan_commons_db` asks of
it: whether it contains the `INSERT INTO` marker for the table
(`isRel`), and the list of accepted handler results `extract_match`
produces for it (`ext`).  Both are deterministic functions of the line
in the source, so a dump is modelled as a list of values `l : L`
together with those two functions.
-/

structure ScanFiles where
  out : List String
  prog : Nat
  size : Nat
  deriving DecidableEq, Repr

/-- Embeds the `for match in matches:` body: each accepted match is
appended to the output file, the progress key is saved at the current
line number, the match counter is bumped, and when the quota
(`max_phase_matches`, 0 meaning unset) is reached the function signals
an early `return` (third component `true`), dropping any remaining
matches of the line. -/
def write_matches (quota lc : Nat) :
    List String → ScanFiles → Nat → ScanFiles × Nat × Bool
  | [], st, found => (st, found, false)
  | m :: rest, st, found =>
    let st1 : ScanFiles := { st with out := st.out ++ [m], prog := lc }
    let found1 := found + 1
    if quota ≠ 0 ∧ quota ≤ found1 then (st1, found1, true)
    else write_matches quota lc rest st1 found1

/-- Embeds the `for line in inf:` loop of `scan_commons_db`.  `lc0` is
the line counter before the next line, `start` the resume position read
at entry.  A line is skipped when it is irrelevant or `lc < start`
(note: strictly below `start`).  Every `save_interval`-th line saves the
progress key before match extraction.  When the inner match loop signals
the quota `return`, the function returns without the two final saves;
when the loop ends normally the final line count is saved under both the
progress key and the size key. -/
def scan_lines {L : Type} (si quota : Nat) (isRel : L → Bool) (ext : L → List String) :
    List L → Nat → Nat → ScanFiles → Nat → ScanFiles
  | [], lc, _start, st, _found => { st with prog := lc, size := lc }
  | l :: rest, lc0, start, st, found =>
    let lc := lc0 + 1
    if ¬ isRel l ∨ lc < start then
      scan_lines si quota isRel ext rest lc start st found
    else
      let st1 := if lc % si = 0 then { st with prog := lc } else st
      match write_matches quota lc (ext l) st1 found with
      | (st2, _, true) => st2
      | (st2, found2, false) => scan_lines si quota isRel ext rest lc start st2 found2

/-- Embeds one full `scan_commons_db` call.  `start` and `end` are read
from the checkpoint store, `found_matches` is recomputed as the line
count of the output file (`count_lines_fast`).  If the quota is already
met the call returns at once; if the size key is set and
`start ≥ end` the dump is considered fully scanned and only the final
positions are re-saved; otherwise the line loop runs. -/
def scan_commons_db {L : Type} (si quota : Nat) (isRel : L → Bool) (ext : L → List String)
    (lines : List L) (st : ScanFiles) : ScanFiles :=
  let start := st.prog
  let endp := st.size
  let found := st.out.length
  if quota ≠ 0 ∧ quota ≤ found then st
  else if endp = 0 ∨ start < endp then
    scan_lines si quota isRel ext lines 0 start st found
  else
    { st with prog := start, size := start }

/-- A `scan_commons_db` call killed after processing exactly `k` lines
of the loop: every per-line effect up to that point (output writes and
progress saves) is persisted, and the process dies before the final
saves that follow the loop. -/
def scan_lines_killed {L : Type} (si quota : Nat) (isRel : L → Bool) (ext : L → List String) :
    Nat → List L → Nat → Nat → ScanFiles → Nat → ScanFiles
  | 0, _, _, _, st, _ => st
  | _ + 1, [], _, _, st, _ => st
  | k + 1, l :: rest, lc0, start, st, found =>
    let lc := lc0 + 1
    if ¬ isRel l ∨ lc < start then
      scan_lines_killed si quota isRel ext k rest lc start st found
    else
      let st1 := if lc % si = 0 then { st with prog := lc } else st
      match write_matches quota lc (ext l) st1 found with
      | (st2, _, true) => st2
      | (st2, found2, false) => scan_lines_killed si quota isRel ext k rest lc start st2 found2

/-- The interrupted run: same entry logic as `scan_commons_db`, but the
process is killed after `k` loop iterations. -/
def scan_commons_db_killed {L : Type} (k si quota : Nat) (isRel : L → Bool)
    (ext : L → List String) (lines : List L) (st : ScanFiles) : ScanFiles :=
  let start := st.prog
  let endp := st.size
  let found := st.out.length
  if quota ≠ 0 ∧ quota ≤ found then st
  else if endp = 0 ∨ start < endp then
    scan_lines_killed si quota isRel ext k lines 0 start st found
  else
    st

/-- A one-line dump whose single line is relevant and yields one match. -/
def oneMatchDump : List (List String) := [["x"]]

/-- C1: scanning once uninterrupted and scanning interrupted-then-resumed
are claimed to produce identical output.  On the code they do not: the
resume condition `lc < start` skips only lines strictly below the saved
position, so the checkpointed line itself — the very line whose matches
were already written when its position was saved — is re-processed on
resume and its matches are appended a second time.  For a one-line dump
whose line matches once, the uninterrupted scan writes `x` once, while
interrupting after line 1 and resuming writes `x` twice. -/
theorem scan_resume_duplicates_checkpoint_line :
    (scan_commons_db 100 0 (fun _ => true) id oneMatchDump ⟨[], 0, 0⟩).out = ["x"]
    ∧ (scan_commons_db_killed 1 100 0 (fun _ => true) id oneMatchDump ⟨[], 0, 0⟩)
        = ⟨["x"], 1, 0⟩
    ∧ (scan_commons_db 100 0 (fun _ => true) id oneMatchDump
        (scan_commons_db_killed 1 100 0 (fun _ => true) id oneMatchDump ⟨[], 0, 0⟩)).out
        = ["x", "x"] := by
  exact ⟨rfl, rfl, rfl⟩

/-- A two-line dump, both lines relevant, each yielding one match. -/
def twoMatchDump : List (List String) := [["x"], ["y"]]

/-- C3: with a match quota of 1, the scanner stops immediately after the
first match (the second line's match is never written) and the progress
key holds the final line number 1 — but the early `return` taken when
the quota is reached skips the two `save_position` calls after the
loop, so the terminal `size` key is never persisted (it stays 0/absent),
contrary to the claim and to the comment in the source announcing the
save.  A repeated call on the resulting state returns at once because
the match count is recomputed from the output file's line count. -/
theorem scan_quota_stop_size_key_unsaved :
    scan_commons_db 100 1 (fun _ => true) id twoMatchDump ⟨[], 0, 0⟩ = ⟨["x"], 1, 0⟩
    ∧ scan_commons_db 100 1 (fun _ => true) id twoMatchDump ⟨["x"], 1, 0⟩ = ⟨["x"], 1, 0⟩ := by
  exact ⟨rfl, rfl⟩

/-! ## Download engine (`download.py`, `download_file`)

`download_file` issues a single `requests.get` per call.  Its outcome
is abstracted as either a response with a status code (`resp c`, no
exception raised) or an exception (`exc`, covering transport failures
and errors while streaming the body).

The state a call touches: `ctx.downloads_set`, `ctx.failed_downloads_set`
(Python sets of filenames, modelled as lists to which a name is appended
at most once, since each `add` is guarded by the membership skips), and
`tracker._current`, whose value is forwarded through `log_queue` to
`safe_pos_thread`, which persists it under the category's
`download:<cat>:size` key — so `current` is exactly the per-category
cursor persisted in the checkpoint store. -/

inductive HttpResult where
  | resp (code : Nat)
  | exc
  deriving DecidableEq, Repr

structure DLState where
  downloads : List String
  failed : List String
  current : Nat
  deriving DecidableEq, Repr

/-- Embeds one `download_file` call.  A filename already in the failed
or downloaded set returns before the `try` block, touching nothing.
Otherwise: status 200 streams the body and adds the name to
`downloads_set`; any other status falls through without touching either
set; an exception adds the name to `failed_downloads_set`.  The
`finally` block then increments `tracker._current` and enqueues the new
value for `safe_pos_thread`, which saves it as the category cursor —
this happens on every non-skipped path, success or not. -/
def download_file (st : DLState) (file_title : String) (r : HttpResult) : DLState :=
  if file_title ∈ st.failed then st
  else if file_title ∈ st.downloads then st
  else
    let st1 :=
      match r with
      | .resp code =>
        if code = 200 then { st with downloads := st.downloads ++ [file_title] } else st
      | .exc => { st with failed := st.failed ++ [file_title] }
    { st1 with current := st1.current + 1 }

/-- One run's worth of dispatched fetches: the worker pool maps
`download_file` over the batch; each job is a filename paired with the
outcome of its single HTTP attempt. -/
def run_batch (st : DLState) (jobs : List (String × HttpResult)) : DLState :=
  jobs.foldl (fun s j => download_file s j.1 j.2) st

/-- A call on a file already in one of the two sets returns before the
`try` block and changes nothing. -/
theorem download_file_skip (st : DLState) (f : String) (r : HttpResult)
    (h : f ∈ st.failed ∨ f ∈ st.downloads) :
    download_file st f r = st := by
  unfold download_file
  rcases h with h | h
  · rw [if_pos h]
  · by_cases hf : f ∈ st.failed
    · rw [if_pos hf]
    · rw [if_neg hf, if_pos h]

/-- Case equation: HTTP 200 on a fresh file. -/
theorem download_file_200 (st : DLState) (f : String)
    (hf : f ∉ st.failed) (hd : f ∉ st.downloads) :
    download_file st f (.resp 200) = ⟨st.downloads ++ [f], st.failed, st.current + 1⟩ := by
  unfold download_file
  rw [if_neg hf, if_neg hd]
  rfl

/-- Case equation: a non-200 status on a fresh file. -/
theorem download_file_non200 (st : DLState) (f : String) (code : Nat)
    (hf : f ∉ st.failed) (hd : f ∉ st.downloads) (h200 : code ≠ 200) :
    download_file st f (.resp code) = ⟨st.downloads, st.failed, st.current + 1⟩ := by
  unfold download_file
  rw [if_neg hf, if_neg hd]
  simp only [if_neg h200]

/-- Case equation: an exception on a fresh file. -/
theorem download_file_exc (st : DLState) (f : String)
    (hf : f ∉ st.failed) (hd : f ∉ st.downloads) :
    download_file st f .exc = ⟨st.downloads, st.failed ++ [f], st.current + 1⟩ := by
  unfold download_file
  rw [if_neg hf, if_neg hd]

/-- C2 counterexample: the claim's retry/backoff protocol does not exist
in the code — `download_file` makes exactly one attempt and never
consults the rate limiter.  Concretely, a fresh file whose only attempt
returns HTTP 429 is claimed to end in the failed set once retries are
exhausted; the code leaves it in neither set (429 is not 200 and raises
no exception), and no retry or backoff takes place. -/
theorem download_429_not_failed :
    download_file ⟨[], [], 0⟩ "f" (.resp 429) = ⟨[], [], 1⟩
    ∧ ¬ ("f" ∈ (download_file ⟨[], [], 0⟩ "f" (.resp 429)).failed
        ∨ "f" ∈ (download_file ⟨[], [], 0⟩ "f" (.resp 429)).downloads) := by
  exact ⟨rfl, by decide⟩

/-- C2 amended: one attempt only, no rate limiter.  For a file not
already in either set, the attempt's outcome fully determines the sets:
the file joins `downloads` exactly when the response status is 200,
joins `failed` exactly when the attempt raised, and a non-200 status
without an exception leaves both sets unchanged; the cursor advances by
one in every case. -/
theorem download_file_single_attempt (st : DLState) (f : String) (r : HttpResult)
    (hf : f ∉ st.failed) (hd : f ∉ st.downloads) :
    ((download_file st f r).downloads = st.downloads ++ [f] ↔ r = .resp 200)
    ∧ ((download_file st f r).failed = st.failed ++ [f] ↔ r = .exc)
    ∧ (∀ c, c ≠ 200 → r = .resp c →
        (download_file st f r).downloads = st.downloads
        ∧ (download_file st f r).failed = st.failed)
    ∧ (download_file st f r).current = st.current + 1 := by
  match r with
  | .resp code =>
    by_cases h200 : code = 200
    · subst h200
      rw [download_file_200 st f hf hd]
      refine ⟨by simp, by simp, ?_, rfl⟩
      intro c hc hr
      cases hr
      exact absurd rfl hc
    · rw [download_file_non200 st f code hf hd h200]
      refine ⟨by simp [h200], by simp, ?_, rfl⟩
      intro c _ hr
      cases hr
      exact ⟨rfl, rfl⟩
  | .exc =>
    rw [download_file_exc st f hf hd]
    refine ⟨by simp, by simp, ?_, rfl⟩
    intro c _ hr
    simp at hr

/-- Witness for `download_file_single_attempt` at a concrete state. -/
theorem download_file_single_attempt_witness :
    ((download_file ⟨["a"], ["b"], 3⟩ "f" .exc).failed
      = ["b"] ++ ["f"] ↔ HttpResult.exc = .exc)
    ∧ (download_file ⟨["a"], ["b"], 3⟩ "f" .exc).current = 3 + 1 :=
  ⟨(download_file_single_attempt ⟨["a"], ["b"], 3⟩ "f" .exc (by decide) (by decide)).2.1,
   (download_file_single_attempt ⟨["a"], ["b"], 3⟩ "f" .exc (by decide) (by decide)).2.2.2⟩

/-- C4 counterexample: the persisted per-category cursor is claimed to
advance only on confirmed successful downloads, but the increment lives
in the `finally` block: a fresh file whose attempt raises an exception
still advances the cursor from 0 to 1 while the downloaded set stays
empty. -/
theorem cursor_advances_on_failed_download :
    download_file ⟨[], [], 0⟩ "f" .exc = ⟨[], ["f"], 1⟩
    ∧ (download_file ⟨[], [], 0⟩ "f" .exc).downloads = [] := by
  exact ⟨rfl, rfl⟩

/-- C4 amended: the cursor counts completed attempts, not successes.
`download_file` advances the persisted cursor by exactly one for every
dispatched file that is not skipped by the membership guards — whether
the attempt succeeded, returned a non-200 status, or raised — and by
zero for files already in the downloaded or failed sets. -/
theorem cursor_counts_nonskipped_attempts (st : DLState) (f : String) (r : HttpResult) :
    (download_file st f r).current
      = st.current + (if f ∈ st.failed ∨ f ∈ st.downloads then 0 else 1) := by
  by_cases hs : f ∈ st.failed ∨ f ∈ st.downloads
  · rw [download_file_skip st f r hs, if_pos hs]
    rfl
  · push_neg at hs
    obtain ⟨hf, hd⟩ := hs
    rw [if_neg (by push_neg; exact ⟨hf, hd⟩)]
    match r with
    | .resp code =>
      by_cases h200 : code = 200
      · subst h200
        rw [download_file_200 st f hf hd]
      · rw [download_file_non200 st f code hf hd h200]
    | .exc =>
      rw [download_file_exc st f hf hd]

/-- C5 counterexample: a dispatched file is claimed to end in exactly
one of the two sets.  A fresh file whose single attempt returns a
non-200, non-raising status (here 404) ends the run in neither set. -/
theorem dispatched_file_in_neither_set :
    run_batch ⟨[], [], 0⟩ [("f", .resp 404)] = ⟨[], [], 1⟩
    ∧ "f" ∉ (run_batch ⟨[], [], 0⟩ [("f", .resp 404)]).downloads
    ∧ "f" ∉ (run_batch ⟨[], [], 0⟩ [("f", .resp 404)]).failed := by
  exact ⟨rfl, by decide, by decide⟩

/-- The two sets stay disjoint across one `download_file` call: names
are added only on the non-skip path, after both membership guards, and
each outcome adds to at most one set. -/
theorem download_file_disjoint (st : DLState) (f : String) (r : HttpResult)
    (h : ∀ g, g ∈ st.downloads → g ∉ st.failed) :
    ∀ g, g ∈ (download_file st f r).downloads → g ∉ (download_file st f r).failed := by
  by_cases hs : f ∈ st.failed ∨ f ∈ st.downloads
  · rw [download_file_skip st f r hs]
    exact h
  · push_neg at hs
    obtain ⟨hf, hd⟩ := hs
    match r with
    | .resp code =>
      by_cases h200 : code = 200
      · subst h200
        rw [download_file_200 st f hf hd]
        intro g hg hmem
        rcases List.mem_append.mp hg with hm | hm
        · exact h g hm hmem
        · rw [List.mem_singleton] at hm
          subst hm
          exact hf hmem
      · rw [download_file_non200 st f code hf hd h200]
        exact h
    | .exc =>
      rw [download_file_exc st f hf hd]
      intro g hg hmem
      rcases List.mem_append.mp hmem with hm | hm
      · exact h g hg hm
      · rw [List.mem_singleton] at hm
        subst hm
        exact hd hg

/-- C5 amended: each dispatched file ends the run in at most one of the
two sets (the sets stay disjoint throughout a batch whenever they start
disjoint), but not necessarily in one of them: a file whose attempt
returns a non-200 status without raising is left in neither. -/
theorem run_batch_sets_disjoint (st : DLState) (jobs : List (String × HttpResult))
    (h : ∀ g, g ∈ st.downloads → g ∉ st.failed) :
    ∀ g, g ∈ (run_batch st jobs).downloads → g ∉ (run_batch st jobs).failed := by
  induction jobs generalizing st with
  | nil => exact h
  | cons j rest ih =>
    exact ih (download_file st j.1 j.2) (download_file_disjoint st j.1 j.2 h)

/-- Witness for `run_batch_sets_disjoint` at a concrete batch mixing a
success, an exception, and a 404: the successfully downloaded file is
not in the failed set. -/
theorem run_batch_sets_disjoint_witness :
    "c" ∉ (run_batch ⟨["a"], ["b"], 0⟩
      [("c", .resp 200), ("d", .exc), ("e", .resp 404)]).failed :=
  run_batch_sets_disjoint ⟨["a"], ["b"], 0⟩
    [("c", .resp 200), ("d", .exc), ("e", .resp 404)] (by decide) "c" (by decide)

/-! ## Adaptive rate limiter (`rateLimiter.py`, `AdaptiveRateLimiter`)

Python floats carrying delays are modelled as rationals; the operations
involved (`min`, `max`, one multiplication or division by `factor`) are
order-algebraic, so the clamping and monotonicity properties proved here
are exact.  The `threading.Event` pause gate is the `pauseOpen` flag
(`set` = open); `_sleeping` is the "backoff in progress" flag.  Each
method is embedded as the whole-call effect on this state. -/

structure AdaptiveRateLimiter where
  base : ℚ
  max : ℚ
  factor : ℚ
  delay : ℚ
  sleeping : Bool
  pauseOpen : Bool
  deriving DecidableEq, Repr

/-- The constructor's state: delay starts at `base`, the gate is open,
no backoff in progress. -/
def mkAdaptiveRateLimiter (base max factor : ℚ) : AdaptiveRateLimiter :=
  ⟨base, max, factor, base, false, true⟩

/-- Embeds `success`: multiplicative decrease floored at `base`. -/
def AdaptiveRateLimiter.success (st : AdaptiveRateLimiter) : AdaptiveRateLimiter :=
  { st with delay := Max.max st.base (st.delay / st.factor) }

/-- Embeds one whole `backoff` call.  If a backoff is already in
progress the call returns immediately and changes nothing.  Otherwise
the new delay is the server hint clamped to `max` when present, else
the current delay times `factor` clamped to `max`; after the shared
sleep the gate is reopened and the flag cleared, so the call's net
effect is the new delay with `sleeping = false` and the gate open. -/
def AdaptiveRateLimiter.backoff (st : AdaptiveRateLimiter) (retry_after : Option ℚ) :
    AdaptiveRateLimiter :=
  if st.sleeping then st
  else
    let delay :=
      match retry_after with
      | some h => Min.min st.max h
      | none => Min.min st.max (st.delay * st.factor)
    { st with delay := delay, sleeping := false, pauseOpen := true }

/-- C8: `backoff` sets the delay to `min(max, hint)` when a hint is
provided and to `min(max, delay * factor)` otherwise, so the delay
never exceeds `max` after any completed backoff; and when a backoff is
already in progress a further `backoff` call is a no-op. -/
theorem backoff_clamps_and_noop (st : AdaptiveRateLimiter) (hint : Option ℚ) :
    (st.sleeping = false →
      (st.backoff hint).delay
        = (match hint with
           | some h => Min.min st.max h
           | none => Min.min st.max (st.delay * st.factor))
      ∧ (st.backoff hint).delay ≤ st.max)
    ∧ (st.sleeping = true → st.backoff hint = st) := by
  constructor
  · intro hs
    unfold AdaptiveRateLimiter.backoff
    rw [if_neg (by rw [hs]; exact Bool.false_ne_true)]
    refine ⟨rfl, ?_⟩
    match hint with
    | some h => exact min_le_left _ _
    | none => exact min_le_left _ _
  · intro hs
    unfold AdaptiveRateLimiter.backoff
    rw [if_pos hs]

/-- Witness for `backoff_clamps_and_noop` at the constructor defaults
and hint 300 (a `Retry-After` larger than the 60-second cap). -/
theorem backoff_clamps_and_noop_witness :
    ((mkAdaptiveRateLimiter 1 60 2).backoff (some 300)).delay = Min.min 60 300
    ∧ ((mkAdaptiveRateLimiter 1 60 2).backoff (some 300)).delay ≤ 60 := by
  exact (backoff_clamps_and_noop (mkAdaptiveRateLimiter 1 60 2) (some 300)).1 rfl

theorem success_delay (st : AdaptiveRateLimiter) :
    st.success.delay = Max.max st.base (st.delay / st.factor) := rfl

theorem success_iter_base (st : AdaptiveRateLimiter) (n : Nat) :
    (AdaptiveRateLimiter.success^[n] st).base = st.base := by
  induction n with
  | zero => rfl
  | succ n ih => rw [Function.iterate_succ_apply']; exact ih

theorem success_iter_factor (st : AdaptiveRateLimiter) (n : Nat) :
    (AdaptiveRateLimiter.success^[n] st).factor = st.factor := by
  induction n with
  | zero => rfl
  | succ n ih => rw [Function.iterate_succ_apply']; exact ih

/-- Closed form for the delay after `n` consecutive `success` calls. -/
theorem success_iter_delay (st : AdaptiveRateLimiter) (n : Nat)
    (hd : st.base ≤ st.delay) (hb : 0 ≤ st.base) (hf : 1 ≤ st.factor) :
    (AdaptiveRateLimiter.success^[n] st).delay
      = Max.max st.base (st.delay / st.factor ^ n) := by
  have hf0 : (0 : ℚ) < st.factor := lt_of_lt_of_le one_pos hf
  induction n with
  | zero =>
    simp only [Function.iterate_zero, id_eq, pow_zero, div_one]
    exact (max_eq_right hd).symm
  | succ n ih =>
    rw [Function.iterate_succ_apply', success_delay, success_iter_base,
      success_iter_factor, ih]
    rcases le_total (st.delay / st.factor ^ n) st.base with h | h
    · rw [max_eq_left h]
      have h1 : st.base / st.factor ≤ st.base := div_le_self hb hf
      have h2 : st.delay / st.factor ^ (n + 1) ≤ st.base := by
        rw [pow_succ, ← div_div]
        calc st.delay / st.factor ^ n / st.factor
            ≤ st.base / st.factor := by gcongr
          _ ≤ st.base := h1
      rw [max_eq_left h1, max_eq_left h2]
    · rw [max_eq_right h, pow_succ, ← div_div]

/-- C9: each `success` call sets the delay to
`max(base, delay / factor)`; starting from any delay at least `base`
(with the constructor-shaped parameters `base ≥ 0`, `factor ≥ 1`), the
iterated delays never drop below `base`, are monotonically
non-increasing, and equal `max(base, delay₀ / factor^n)` — converging
toward `base` as the quotient shrinks. -/
theorem success_monotone_toward_base (st : AdaptiveRateLimiter) (n : Nat)
    (hd : st.base ≤ st.delay) (hb : 0 ≤ st.base) (hf : 1 ≤ st.factor) :
    st.success.delay = Max.max st.base (st.delay / st.factor)
    ∧ st.base ≤ (AdaptiveRateLimiter.success^[n] st).delay
    ∧ (AdaptiveRateLimiter.success^[n + 1] st).delay
        ≤ (AdaptiveRateLimiter.success^[n] st).delay
    ∧ (AdaptiveRateLimiter.success^[n] st).delay
        = Max.max st.base (st.delay / st.factor ^ n) := by
  have hf0 : (0 : ℚ) < st.factor := lt_of_lt_of_le one_pos hf
  have hd0 : 0 ≤ st.delay := le_trans hb hd
  refine ⟨success_delay st, ?_, ?_, success_iter_delay st n hd hb hf⟩
  · rw [success_iter_delay st n hd hb hf]
    exact le_max_left _ _
  · rw [success_iter_delay st n hd hb hf, success_iter_delay st (n + 1) hd hb hf]
    refine max_le_max le_rfl ?_
    have hpow : st.factor ^ n ≤ st.factor ^ (n + 1) :=
      pow_le_pow_right₀ hf (Nat.le_succ n)
    exact div_le_div_of_nonneg_left hd0 (pow_pos hf0 n) hpow

/-- Witness for `success_monotone_toward_base`: defaults with delay 8,
two successes later the delay is `max 1 (8/4) = 2`. -/
theorem success_monotone_toward_base_witness :
    (AdaptiveRateLimiter.mk 1 60 2 8 false true).success.delay = Max.max 1 (8 / 2)
    ∧ (1 : ℚ) ≤ (AdaptiveRateLimiter.success^[2] (AdaptiveRateLimiter.mk 1 60 2 8 false true)).delay
    ∧ (AdaptiveRateLimiter.success^[3] (AdaptiveRateLimiter.mk 1 60 2 8 false true)).delay
        ≤ (AdaptiveRateLimiter.success^[2] (AdaptiveRateLimiter.mk 1 60 2 8 false true)).delay
    ∧ (AdaptiveRateLimiter.success^[2] (AdaptiveRateLimiter.mk 1 60 2 8 false true)).delay
        = Max.max 1 (8 / 2 ^ 2) := by
  exact success_monotone_toward_base (AdaptiveRateLimiter.mk 1 60 2 8 false true) 2
    (by norm_num) (by norm_num) (by norm_num)

/-! ## Index builder (`main.py`: `retrace`, `update_found_files`)

A persisted index (the `Categorized_file_titles.json` object) is an
insertion-ordered mapping from category name to an entry
`{id, n_files, files}`; Python dicts are embedded as association lists
in insertion order, with lookup returning the first (unique) binding,
in-place value update, and insertion at the end. -/

structure Entry where
  id : Int
  n_files : Nat
  files : List String
  deriving DecidableEq, Repr

/-- An insertion-ordered `category → entry` mapping. -/
abbrev Index := List (String × Entry)

/-- Dict lookup: the binding of `k`, if any. -/
def alookup : Index → String → Option Entry
  | [], _ => none
  | p :: rest, k => if p.1 = k then some p.2 else alookup rest k

/-- Dict assignment to an existing key: replace the value in place. -/
def aupdate : Index → String → Entry → Index
  | [], _, _ => []
  | p :: rest, k, e => if p.1 = k then (p.1, e) :: rest else p :: aupdate rest k e

/-- A two-column scan output file loaded into a dict (`int(id) → title`):
repeated assignment means the last binding of an id wins. -/
def dictOf (l : List (Int × String)) : Int → Option String :=
  fun i => (l.reverse.find? (fun p => p.1 == i)).map Prod.snd

/-- Embeds one iteration of the `categorylinks` loop in `retrace`: a row
`(id, tid)` is skipped when `id` is not a known page or `tid` does not
resolve to a (non-empty) category title; otherwise the category's entry
is created on first sight and the page's filename is appended with the
count incremented. -/
def retrace_step (pageMap ltMap : Int → Option String) (acc : Index) (row : Int × Int) :
    Index :=
  match pageMap row.1 with
  | none => acc
  | some fname =>
    match ltMap row.2 with
    | none => acc
    | some title =>
      if title = "" then acc
      else
        match alookup acc title with
        | none => acc ++ [(title, ⟨row.1, 1, [fname]⟩)]
        | some e => aupdate acc title ⟨e.id, e.n_files + 1, e.files ++ [fname]⟩

/-- Embeds `retrace`: load the linktarget output as `id → title` and the
page output as `id → filename`, then fold the categorylinks rows. -/
def retrace (ltLines pageLines : List (Int × String)) (clLines : List (Int × Int)) :
    Index :=
  clLines.foldl (retrace_step (dictOf pageLines) (dictOf ltLines)) []

/-- Embeds one iteration of the merge loop in `update_found_files`:
a category not yet persisted is inserted wholesale with its count
recomputed from the list length; an existing category has the genuinely
new filenames (those not already in its persisted list) appended and
its count recomputed as the new list length. -/
def merge_step (existing : Index) (p : String × Entry) : Index :=
  match alookup existing p.1 with
  | none => existing ++ [(p.1, ⟨p.2.id, p.2.files.length, p.2.files⟩)]
  | some e =>
    let nf := p.2.files.filter (fun f => decide (f ∉ e.files))
    aupdate existing p.1 ⟨e.id, (e.files ++ nf).length, e.files ++ nf⟩

/-- Embeds `update_found_files`: fold the freshly built data into the
persisted index. -/
def update_found_files (existing data : Index) : Index :=
  data.foldl merge_step existing

theorem alookup_mem {l : Index} {k : String} {e : Entry} (h : alookup l k = some e) :
    (k, e) ∈ l := by
  induction l with
  | nil => cases h
  | cons p rest ih =>
    obtain ⟨a, b⟩ := p
    by_cases hp : a = k
    · rw [alookup, if_pos hp] at h
      injection h with h
      subst hp
      subst h
      exact List.mem_cons_self _ _
    · rw [alookup, if_neg hp] at h
      exact List.mem_cons_of_mem _ (ih h)

theorem mem_aupdate {l : Index} {k : String} {e' : Entry} {c : String} {e : Entry}
    (h : (c, e) ∈ aupdate l k e') : (c, e) ∈ l ∨ e = e' := by
  induction l with
  | nil => cases h
  | cons p rest ih =>
    obtain ⟨a, b⟩ := p
    by_cases hp : a = k
    · rw [aupdate, if_pos hp] at h
      rcases List.mem_cons.mp h with h | h
      · right
        exact congrArg Prod.snd h
      · exact Or.inl (List.mem_cons_of_mem _ h)
    · rw [aupdate, if_neg hp] at h
      rcases List.mem_cons.mp h with h | h
      · exact Or.inl (h ▸ List.mem_cons_self _ _)
      · rcases ih h with h | h
        · exact Or.inl (List.mem_cons_of_mem _ h)
        · exact Or.inr h

/-- One categorylinks row preserves `n_files == len(files)` for every
entry: a fresh entry is created with count 1 and one file, and an
append bumps both the count and the length by one. -/
theorem retrace_step_counts (pm lm : Int → Option String) (acc : Index) (row : Int × Int)
    (h : ∀ c e, (c, e) ∈ acc → e.n_files = e.files.length) :
    ∀ c e, (c, e) ∈ retrace_step pm lm acc row → e.n_files = e.files.length := by
  unfold retrace_step
  split
  · exact h
  · split
    · exact h
    · split
      · exact h
      · split
        · intro c e hm
          rcases List.mem_append.mp hm with hm | hm
          · exact h c e hm
          · rw [List.mem_singleton] at hm
            injection hm with _ hm
            subst hm
            rfl
        · rename_i e0 hal
          intro c e hm
          rcases mem_aupdate hm with hm | hm
          · exact h c e hm
          · subst hm
            have he0 := h _ e0 (alookup_mem hal)
            simp [he0]

theorem foldl_retrace_counts (pm lm : Int → Option String) (rows : List (Int × Int))
    (acc : Index) (h : ∀ c e, (c, e) ∈ acc → e.n_files = e.files.length) :
    ∀ c e, (c, e) ∈ rows.foldl (retrace_step pm lm) acc → e.n_files = e.files.length := by
  induction rows generalizing acc with
  | nil => exact h
  | cons row rest ih => exact ih _ (retrace_step_counts pm lm acc row h)

/-- One merge iteration preserves `n_files == len(files)`: both branches
store the recomputed list length as the count. -/
theorem merge_step_counts (ex : Index) (p : String × Entry)
    (h : ∀ c e, (c, e) ∈ ex → e.n_files = e.files.length) :
    ∀ c e, (c, e) ∈ merge_step ex p → e.n_files = e.files.length := by
  unfold merge_step
  rcases hal : alookup ex p.1 with _ | e0
  · intro c e hm
    rcases List.mem_append.mp hm with hm | hm
    · exact h c e hm
    · rw [List.mem_singleton] at hm
      injection hm with _ hm
      subst hm
      rfl
  · intro c e hm
    rcases mem_aupdate hm with hm | hm
    · exact h c e hm
    · subst hm
      rfl

theorem foldl_merge_counts (data : List (String × Entry)) (ex : Index)
    (h : ∀ c e, (c, e) ∈ ex → e.n_files = e.files.length) :
    ∀ c e, (c, e) ∈ update_found_files ex data → e.n_files = e.files.length := by
  induction data generalizing ex with
  | nil => exact h
  | cons p rest ih => exact ih _ (merge_step_counts ex p h)

/-- C6 counterexample: the files list of an index entry can contain
duplicates.  The categorylinks scan output can carry two rows with the
same page id and target (e.g. after the scanner's resume duplication),
and `retrace` appends the page's filename once per row without a
membership check, yielding the entry `files = ["A", "A"]`. -/
theorem retrace_duplicate_files :
    retrace [(5, "Cat")] [(1, "A")] [(1, 5), (1, 5)] = [("Cat", ⟨1, 2, ["A", "A"]⟩)]
    ∧ ¬ (⟨1, 2, ["A", "A"]⟩ : Entry).files.Nodup := by
  exact ⟨by decide, by decide⟩

/-- C6 amended: every entry produced by `retrace` and by the merge
satisfies `n_files == len(files)` (counts and lengths move together in
every branch), but duplicate-freedom of `files` does not hold in
general: `retrace` appends unconditionally and the merge deduplicates
only against the previously persisted list. -/
theorem index_counts_match_lengths (lt pg : List (Int × String)) (cl : List (Int × Int))
    (ex data : Index)
    (hex : ∀ c e, (c, e) ∈ ex → e.n_files = e.files.length) :
    (∀ c e, (c, e) ∈ retrace lt pg cl → e.n_files = e.files.length)
    ∧ (∀ c e, (c, e) ∈ update_found_files ex data → e.n_files = e.files.length) :=
  ⟨foldl_retrace_counts _ _ cl [] (fun _ _ hm => absurd hm (List.not_mem_nil _)),
   foldl_merge_counts data ex hex⟩

/-- Witness for `index_counts_match_lengths` on concrete scan outputs:
the single entry `retrace` builds there has matching count and length. -/
theorem index_counts_match_lengths_witness :
    (⟨1, 2, ["A", "B"]⟩ : Entry).n_files = (⟨1, 2, ["A", "B"]⟩ : Entry).files.length :=
  (index_counts_match_lengths [(5, "Cat")] [(1, "A"), (2, "B")] [(1, 5), (2, 5)]
    [("Cat", ⟨7, 1, ["A"]⟩)] [("Cat", ⟨7, 2, ["A", "B"]⟩)]
    (fun _ e hm => by
      rw [List.mem_singleton] at hm
      injection hm with h1 h2
      subst h2
      rfl)).1 "Cat" ⟨1, 2, ["A", "B"]⟩ (by decide)

theorem alookup_append_right {l : Index} {k : String} (m : Index)
    (h : alookup l k = none) : alookup (l ++ m) k = alookup m k := by
  induction l with
  | nil => rfl
  | cons p rest ih =>
    by_cases hp : p.1 = k
    · rw [alookup, if_pos hp] at h
      cases h
    · rw [alookup, if_neg hp] at h
      rw [List.cons_append, alookup, if_neg hp]
      exact ih h

theorem alookup_aupdate_self {l : Index} {k : String} {e0 : Entry} (e' : Entry)
    (h : alookup l k = some e0) : alookup (aupdate l k e') k = some e' := by
  induction l with
  | nil => cases h
  | cons p rest ih =>
    by_cases hp : p.1 = k
    · rw [aupdate, if_pos hp, alookup, if_pos hp]
    · rw [alookup, if_neg hp] at h
      rw [aupdate, if_neg hp, alookup, if_neg hp]
      exact ih h

theorem alookup_aupdate_ne {l : Index} {k c : String} (e' : Entry) (hck : c ≠ k) :
    alookup (aupdate l k e') c = alookup l c := by
  induction l with
  | nil => rfl
  | cons p rest ih =>
    by_cases hp : p.1 = k
    · have hnc : ¬ p.1 = c := by
        rw [hp]
        exact fun hkc => hck hkc.symm
      rw [aupdate, if_pos hp, alookup, if_neg hnc, alookup, if_neg hnc]
    · rw [aupdate, if_neg hp, alookup, alookup]
      by_cases hc : p.1 = c
      · rw [if_pos hc, if_pos hc]
      · rw [if_neg hc, if_neg hc]
        exact ih

theorem aupdate_self {l : Index} {k : String} {e : Entry} (h : alookup l k = some e) :
    aupdate l k e = l := by
  induction l with
  | nil => rfl
  | cons p rest ih =>
    by_cases hp : p.1 = k
    · rw [alookup, if_pos hp] at h
      injection h with h
      rw [aupdate, if_pos hp, ← h]
    · rw [alookup, if_neg hp] at h
      rw [aupdate, if_neg hp, ih h]

theorem alookup_append_some {l : Index} {k : String} {e : Entry} (m : Index)
    (h : alookup l k = some e) : alookup (l ++ m) k = some e := by
  induction l with
  | nil => cases h
  | cons p rest ih =>
    by_cases hp : p.1 = k
    · rw [alookup, if_pos hp] at h
      rw [List.cons_append, alookup, if_pos hp]
      exact h
    · rw [alookup, if_neg hp] at h
      rw [List.cons_append, alookup, if_neg hp]
      exact ih h

/-- Case equation for the merge of a category not yet persisted. -/
theorem merge_step_none {l : Index} {p : String × Entry} (h : alookup l p.1 = none) :
    merge_step l p = l ++ [(p.1, ⟨p.2.id, p.2.files.length, p.2.files⟩)] := by
  unfold merge_step
  rw [h]

/-- Case equation for the merge of an already-persisted category. -/
theorem merge_step_some {l : Index} {p : String × Entry} {e : Entry}
    (h : alookup l p.1 = some e) :
    merge_step l p
      = aupdate l p.1
          ⟨e.id, (e.files ++ p.2.files.filter (fun f => decide (f ∉ e.files))).length,
            e.files ++ p.2.files.filter (fun f => decide (f ∉ e.files))⟩ := by
  unfold merge_step
  rw [h]

/-- After a category's data has been merged, the persisted index holds
the category with a correct count and all of its merged files. -/
def goodAt (l : Index) (c : String) (fs : List String) : Prop :=
  ∃ e, alookup l c = some e ∧ e.n_files = e.files.length ∧ ∀ f ∈ fs, f ∈ e.files

theorem merge_step_goodAt_self (l : Index) (p : String × Entry) :
    goodAt (merge_step l p) p.1 p.2.files := by
  rcases hal : alookup l p.1 with _ | e0
  · rw [merge_step_none hal]
    refine ⟨⟨p.2.id, p.2.files.length, p.2.files⟩, ?_, rfl, fun f hf => hf⟩
    rw [alookup_append_right _ hal, alookup, if_pos rfl]
  · rw [merge_step_some hal]
    refine ⟨_, alookup_aupdate_self _ hal, rfl, ?_⟩
    intro f hf
    by_cases hf0 : f ∈ e0.files
    · exact List.mem_append.mpr (Or.inl hf0)
    · exact List.mem_append.mpr (Or.inr (List.mem_filter.mpr ⟨hf, decide_eq_true hf0⟩))

theorem merge_step_goodAt_mono {l : Index} {c : String} {fs : List String}
    (h : goodAt l c fs) (p : String × Entry) : goodAt (merge_step l p) c fs := by
  obtain ⟨e, hal, hn, hfs⟩ := h
  by_cases hc : p.1 = c
  · subst hc
    rw [merge_step_some hal]
    refine ⟨_, alookup_aupdate_self _ hal, rfl, ?_⟩
    intro f hf
    exact List.mem_append.mpr (Or.inl (hfs f hf))
  · rcases hal2 : alookup l p.1 with _ | e0
    · rw [merge_step_none hal2]
      exact ⟨e, alookup_append_some _ hal, hn, hfs⟩
    · rw [merge_step_some hal2]
      exact ⟨e, (alookup_aupdate_ne _ (fun hcc => hc hcc.symm)).trans hal, hn, hfs⟩

theorem merge_step_fixed {l : Index} {p : String × Entry} (h : goodAt l p.1 p.2.files) :
    merge_step l p = l := by
  obtain ⟨e, hal, hn, hfs⟩ := h
  rw [merge_step_some hal]
  have hnil : p.2.files.filter (fun f => decide (f ∉ e.files)) = [] := by
    rw [List.filter_eq_nil_iff]
    intro f hf
    simp only [decide_eq_true_eq, Decidable.not_not]
    exact hfs f hf
  rw [hnil, List.append_nil]
  have he : (⟨e.id, e.files.length, e.files⟩ : Entry) = e := by
    cases e with
    | mk i n fl =>
      simp only at hn
      rw [hn]
  rw [he]
  exact aupdate_self hal

theorem update_found_files_goodAt_mono {l : Index} {c : String} {fs : List String}
    (h : goodAt l c fs) (data : List (String × Entry)) :
    goodAt (update_found_files l data) c fs := by
  induction data generalizing l with
  | nil => exact h
  | cons p rest ih => exact ih (merge_step_goodAt_mono h p)

theorem update_found_files_goodAt_all (l : Index) (data : List (String × Entry)) :
    ∀ p ∈ data, goodAt (update_found_files l data) p.1 p.2.files := by
  induction data generalizing l with
  | nil =>
    intro p hp
    cases hp
  | cons q rest ih =>
    intro p hp
    rcases List.mem_cons.mp hp with hp | hp
    · subst hp
      exact update_found_files_goodAt_mono (merge_step_goodAt_self l p) rest
    · exact ih _ p hp

theorem update_found_files_fixed (l : Index) :
    ∀ data : List (String × Entry),
      (∀ p ∈ data, goodAt l p.1 p.2.files) → update_found_files l data = l
  | [], _ => rfl
  | q :: rest, h => by
    have hq : merge_step l q = l := merge_step_fixed (h q (List.mem_cons_self _ _))
    have hstep : update_found_files l (q :: rest)
        = update_found_files (merge_step l q) rest := rfl
    rw [hstep, hq]
    exact update_found_files_fixed l rest (fun p hp => h p (List.mem_cons_of_mem _ hp))

/-- C7: the index merge is idempotent.  Applying `update_found_files` a
second time with the same data leaves the persisted index unchanged —
same categories in the same order, same file lists, same counts:
after the first application every data category is persisted with a
correct count and all of its files, so the second application's filter
is empty everywhere and each in-place update rewrites the entry with
itself. -/
theorem update_found_files_idempotent (ex data : Index) :
    update_found_files (update_found_files ex data) data = update_found_files ex data :=
  update_found_files_fixed _ data (fun p hp => update_found_files_goodAt_all ex data p hp)

/-! ## Checkpoint store (`download_utils.py`, `load_position`)

The checkpoint file is a signature line followed by `key=value` lines.
`load_position` is embedded at the character level: a file is `none`
when it cannot be opened (missing or unreadable) and otherwise a list
of lines, each a list of characters.  The bare `except` in the source
turns any error while reading or parsing — a line without `=`
(unpacking `ValueError`), a non-integer value (`int` `ValueError`) —
into the return value 0. -/

/-- Characters removed by Python's default `str.strip()`. -/
def pyWhitespace (c : Char) : Bool :=
  c = ' ' || c = '\t' || c = '\n' || c = '\r' || c = '\x0b' || c = '\x0c'

/-- Embeds `str.strip()`. -/
def pyStrip (s : List Char) : List Char :=
  ((s.dropWhile pyWhitespace).reverse.dropWhile pyWhitespace).reverse

/-- Embeds `line.split('=', 1)` together with the two-name unpacking:
`some (before, after)` at the first `=`, and `none` when the line has
no `=` (where the source raises `ValueError`). -/
def splitEq1 : List Char → Option (List Char × List Char)
  | [] => none
  | c :: rest =>
    if c = '=' then some ([], rest)
    else
      match splitEq1 rest with
      | none => none
      | some (k, v) => some (c :: k, v)

/-- Value of a non-empty all-digit string. -/
def digitsVal (l : List Char) : Option Nat :=
  if l = [] then none
  else if l.all Char.isDigit then
    some (l.foldl (fun a c => a * 10 + (c.toNat - 48)) 0)
  else none

/-- Embeds `int(...)` on a stripped string: an optional sign followed
by decimal digits (the only shape `save_position` ever writes; other
accepted Python spellings such as underscore grouping are not
modelled). -/
def pyInt (s : List Char) : Option Int :=
  match s with
  | '+' :: rest => (digitsVal rest).map (fun n => (n : Int))
  | '-' :: rest => (digitsVal rest).map (fun n => -(n : Int))
  | _ => (digitsVal s).map (fun n => (n : Int))

/-- The `for line in f:` loop of `load_position`: split each line at
the first `=` (no `=` raises, caught as 0), compare the stripped key,
and on a hit parse the stripped value as an integer (failure caught
as 0); falling off the end returns 0. -/
def loadLoop (key : List Char) : List (List Char) → Int
  | [] => 0
  | line :: rest =>
    match splitEq1 line with
    | none => 0
    | some (k, v) =>
      if pyStrip k = key then
        match pyInt (pyStrip v) with
        | none => 0
        | some n => n
      else loadLoop key rest

/-- Embeds `load_position`: an unopenable file yields 0 via the bare
`except`; otherwise the first line (the signature) is skipped by
`next(f, None)` and the remaining lines are scanned. -/
def load_position (file : Option (List (List Char))) (key : List Char) : Int :=
  match file with
  | none => 0
  | some [] => 0
  | some (_sig :: rest) => loadLoop key rest

/-- A well-formed checkpoint entry rendered as its `key=value` line. -/
def encodeKV (p : List Char × List Char) : List Char :=
  p.1 ++ '=' :: p.2

theorem splitEq1_no_eq {line : List Char} (h : '=' ∉ line) : splitEq1 line = none := by
  induction line with
  | nil => rfl
  | cons c rest ih =>
    rw [splitEq1, if_neg (fun hc => h (List.mem_cons.mpr (Or.inl hc.symm))),
      ih (fun hm => h (List.mem_cons_of_mem c hm))]

theorem splitEq1_encodeKV {k : List Char} (v : List Char) (h : '=' ∉ k) :
    splitEq1 (encodeKV (k, v)) = some (k, v) := by
  induction k with
  | nil => rfl
  | cons c rest ih =>
    have hc : ¬ c = '=' := fun hc => h (List.mem_cons.mpr (Or.inl hc.symm))
    rw [encodeKV] at ih ⊢
    rw [List.cons_append, splitEq1, if_neg hc, ih (fun hm => h (List.mem_cons_of_mem c hm))]

theorem loadLoop_skip (key : List Char) (p : List Char × List Char)
    (rest : List (List Char)) (hk : '=' ∉ p.1) (hne : pyStrip p.1 ≠ key) :
    loadLoop key (encodeKV p :: rest) = loadLoop key rest := by
  obtain ⟨k, v⟩ := p
  rw [loadLoop, splitEq1_encodeKV v hk]
  exact if_neg hne

theorem loadLoop_hit (key : List Char) (k v : List Char) (rest : List (List Char))
    (n : Int) (hk : '=' ∉ k) (hkey : pyStrip k = key) (hv : pyInt (pyStrip v) = some n) :
    loadLoop key (encodeKV (k, v) :: rest) = n := by
  rw [loadLoop, splitEq1_encodeKV v hk]
  show (if pyStrip k = key then
      (match pyInt (pyStrip v) with | none => 0 | some m => m)
    else loadLoop key rest) = n
  rw [if_pos hkey, hv]

/-- C10: `load_position` never raises and falls back to 0 — for a
missing or unreadable file, for a malformed line (no `=`) encountered
before any match, and for a well-formed file in which the key is
absent; and when the key is present in a well-formed file with a
stored integer value, the first such binding's value is returned. -/
theorem load_position_fallback_and_value (key sig line : List Char)
    (entries pre post : List (List Char × List Char)) (k v : List Char) (n : Int) :
    load_position none key = 0
    ∧ ('=' ∉ line → load_position (some (sig :: line :: post.map encodeKV)) key = 0)
    ∧ ((∀ p ∈ entries, '=' ∉ p.1 ∧ pyStrip p.1 ≠ key) →
        load_position (some (sig :: entries.map encodeKV)) key = 0)
    ∧ (entries = pre ++ (k, v) :: post → '=' ∉ k → pyStrip k = key →
        (∀ p ∈ pre, '=' ∉ p.1 ∧ pyStrip p.1 ≠ key) → pyInt (pyStrip v) = some n →
        load_position (some (sig :: entries.map encodeKV)) key = n) := by
  refine ⟨rfl, ?_, ?_, ?_⟩
  · intro h
    rw [load_position, loadLoop, splitEq1_no_eq h]
  · intro h
    rw [load_position]
    induction entries with
    | nil => rfl
    | cons p rest ih =>
      rw [List.map_cons, loadLoop_skip key p _ (h p (List.mem_cons_self _ _)).1
        (h p (List.mem_cons_self _ _)).2]
      exact ih (fun q hq => h q (List.mem_cons_of_mem _ hq))
  · intro he hk hkey hpre hv
    subst he
    rw [load_position]
    induction pre with
    | nil =>
      rw [List.nil_append, List.map_cons]
      exact loadLoop_hit key k v _ n hk hkey hv
    | cons p rest ih =>
      rw [List.cons_append, List.map_cons]
      rw [loadLoop_skip key p _ (hpre p (List.mem_cons_self _ _)).1
        (hpre p (List.mem_cons_self _ _)).2]
      exact ih (fun q hq => hpre q (List.mem_cons_of_mem _ hq))

/-- Witness for `load_position_fallback_and_value`: a concrete file
whose second data line stores `pos=42`. -/
theorem load_position_fallback_and_value_witness :
    load_position none "pos".data = 0
    ∧ load_position (some ["sig".data, "nokey".data]) "pos".data = 0
    ∧ load_position (some ["sig".data, encodeKV ("other".data, "7".data)]) "pos".data = 0
    ∧ load_position (some ["sig".data, encodeKV ("other".data, "7".data),
        encodeKV (" pos ".data, " 42".data)]) "pos".data = 42 := by
  have h := load_position_fallback_and_value "pos".data "sig".data "nokey".data
    [("other".data, "7".data), (" pos ".data, " 42".data)]
    [("other".data, "7".data)] [] " pos ".data " 42".data 42
  refine ⟨h.1, ?_, ?_, ?_⟩
  · exact (load_position_fallback_and_value "pos".data "sig".data "nokey".data
      [] [] [] [] [] 0).2.1 (by decide)
  · exact (load_position_fallback_and_value "pos".data "sig".data "nokey".data
      [("other".data, "7".data)] [] [] [] [] 0).2.2.1 (by decide)
  · exact h.2.2.2 rfl (by decide) (by decide) (by decide) (by decide)

end CWBD
